import Mathlib

/-!
Verification of the kindest build engine (pkg/kindest/build.go) against its
natural-language specification. The Go source is shallowly embedded: pure
helpers become Lean functions over `String`/`List`, the effectful build
pipeline (`Module.doBuild`) becomes a function from an environment of
operation outcomes to a result plus a trace of performed effects, and the
concurrent scheduler protocol (`Module.claim` / `Module.broadcast` /
`Module.Build`) becomes a small-step transition system over interleavings.
-/

set_option maxRecDepth 10000

namespace Kindest

/-! ## Go standard-library path/string models

The Go code uses `strings` and `path/filepath` from the standard library.
These are modelled here with Unix (`/`) separator semantics, operating on
`String.data` character lists so that everything kernel-evaluates.
-/

/-- ASCII white space as recognised by Go's `unicode.IsSpace` (the recipe
lines the code scans are ASCII). -/
def goIsSpace (c : Char) : Bool :=
  c = ' ' || c = '\t' || c = '\n' || c = '\r' || c = '\x0b' || c = '\x0c'

/-- Model of Go `strings.TrimSpace`. -/
def trimSpace (s : String) : String :=
  String.mk (((s.data.dropWhile goIsSpace).reverse.dropWhile goIsSpace).reverse)

/-- Model of Go `strings.HasPrefix`. -/
def goStartsWith (s pre : String) : Bool :=
  pre.data.isPrefixOf s.data

/-- Model of Go `strings.HasSuffix`. -/
def goEndsWith (s suf : String) : Bool :=
  suf.data.isSuffixOf s.data

/-- Split a character list at every occurrence of `sep`. -/
def splitCharsOn (sep : Char) : List Char → List Char → List (List Char)
  | [], cur => [cur.reverse]
  | c :: rest, cur =>
    if c = sep then cur.reverse :: splitCharsOn sep rest []
    else splitCharsOn sep rest (c :: cur)

/-- Model of Go `strings.Split(s, sep)` for a one-character separator
(`os.PathSeparator` is `/` on Unix). -/
def goSplitOn (sep : Char) (s : String) : List String :=
  (splitCharsOn sep s.data []).map String.mk

/-- Group a character list into maximal runs of non-space characters. -/
def fieldsAux : List Char → List Char → List (List Char)
  | [], cur => if cur.isEmpty then [] else [cur.reverse]
  | c :: rest, cur =>
    if goIsSpace c then
      if cur.isEmpty then fieldsAux rest [] else cur.reverse :: fieldsAux rest []
    else fieldsAux rest (c :: cur)

/-- Model of Go `strings.Fields`: split around runs of white space. -/
def goFields (s : String) : List String :=
  (fieldsAux s.data []).map String.mk

/-- Join a list of strings with `/` separators (what Go's
`strings.Join(elems, "/")` does). -/
def joinSlash : List String → String
  | [] => ""
  | [c] => c
  | c :: rest => c ++ "/" ++ joinSlash rest

/-- One step of the component stack used by `goClean`: push a normal
component, and let `..` pop the previous one (outside the root). -/
def cleanStep (rooted : Bool) (acc : List String) (c : String) : List String :=
  if c = ".." then
    if acc ≠ [] ∧ acc.getLast? ≠ some ".." then acc.dropLast
    else if rooted then acc else acc ++ [".."]
  else acc ++ [c]

/-- Model of Go `path/filepath.Clean` for Unix paths: drop empty and `.`
components, resolve `..` against preceding components, and re-join. -/
def goClean (p : String) : String :=
  if p = "" then "." else
  let rooted := goStartsWith p "/"
  let comps := (goSplitOn '/' p).filter (fun c => c ≠ "" && c ≠ ".")
  let stack := comps.foldl (cleanStep rooted) []
  if stack.isEmpty then (if rooted then "/" else ".")
  else (if rooted then "/" else "") ++ joinSlash stack

/-- Model of Go `path/filepath.Join(a, b)`: empty elements are dropped, the
rest are joined with `/` and the result is `Clean`ed. -/
def goJoin (a b : String) : String :=
  if a = "" then (if b = "" then "" else goClean b)
  else goClean (a ++ "/" ++ b)

/-- Model of variadic Go `path/filepath.Join` on a list of elements. -/
def goJoinList (elems : List String) : String :=
  match elems.dropWhile (· = "") with
  | [] => ""
  | rest => goClean (joinSlash rest)

/-- Characters of `p` up to and including the last `/` (empty when `p` has
no separator). -/
def upToLastSep (p : String) : String :=
  String.mk ((p.data.reverse.dropWhile (· ≠ '/')).reverse)

/-- Model of Go `path/filepath.Dir`: everything before the final component,
`Clean`ed (so `Dir "a"` is `"."`). -/
def goDir (p : String) : String :=
  goClean (upToLastSep p)

/-! ## Module status (build.go 521-543)

`BuildStatus` is an `int32` in the source, read and written through
`sync/atomic`; the four values are the constants at build.go 538-543.
-/

/-- The four build states of a module (build.go 538-543). -/
inductive BuildStatus
  | Pending
  | InProgress
  | Failed
  | Succeeded
  deriving DecidableEq, Repr

/-- Whether a status is terminal. -/
def BuildStatus.isTerminal : BuildStatus → Bool
  | .Failed => true
  | .Succeeded => true
  | _ => false

/-- Status stored by `Module.broadcast` (build.go 885-894): `Failed` when the
build returned an error, `Succeeded` otherwise. -/
def terminalStatusOf : Option String → BuildStatus
  | some _ => .Failed
  | none => .Succeeded

/-! ## Scheduler protocol (build.go 852-905 and Module.Build 1256-1291)

Each concurrent `Build(M)` caller is a thread. A thread first executes
`claim()` — an atomic compare-and-swap of `status` from `Pending` to
`InProgress` (build.go 860-866). The winner runs dependencies, possibly the
backend, and finally `broadcast(err)` (build.go 885-899), which under the
subscriber lock stores the terminal status and error and delivers `err` to
every subscriber. A loser inspects the current status (build.go 1258-1271):
`InProgress` makes it subscribe and wait, a terminal status returns the
recorded outcome immediately.

The model is a small-step transition system over interleavings. `claims`,
`backendCalls` and `outcome` are ghost observers: `claims` counts successful
CAS executions, `backendCalls` counts invocations of the backend build for
this module, and `outcome` records the broadcast value. `broadcast` is
modelled at the granularity of the subscriber lock it holds; the two
separate atomic stores inside it are examined by the finer model further
below (claim C4).
-/

/-- Program counter of one `Build(M)` caller. -/
inductive ThreadPC
  | start
  | running
  | waiting
  | done
  deriving DecidableEq, Repr

/-- One caller: its program counter and, once finished, the outcome its
`Build` call returned (`some none` = nil error, `some (some m)` = error m). -/
structure ThreadState where
  pc : ThreadPC
  ret : Option (Option String)
  deriving DecidableEq, Repr

/-- Shared state of one module plus the set of concurrent callers and the
ghost observers. -/
structure RunState where
  status : BuildStatus
  err : Option String
  threads : List ThreadState
  claims : Nat
  backendCalls : Nat
  outcome : Option (Option String)
  deriving DecidableEq, Repr

/-- Initial state: module `Pending`, no error, `n` callers about to enter
`Build`. -/
def RunState.init (n : Nat) : RunState :=
  { status := .Pending
    err := none
    threads := List.replicate n ⟨.start, none⟩
    claims := 0
    backendCalls := 0
    outcome := none }

/-- Delivery loop of `broadcast` (build.go 895-898): every subscriber
receives the broadcast outcome. -/
def deliver (e : Option String) (ts : List ThreadState) : List ThreadState :=
  ts.map (fun t => if t.pc = .waiting then ⟨.done, some e⟩ else t)

/-- Interleaved small-step semantics of the claim/broadcast protocol.

`claimWin`: the CAS of `Module.claim` succeeds (only possible from
`Pending`); the winner proceeds to the build body.
`loseInProgress`: the CAS failed and `Status()` reads `InProgress`; the
caller subscribes (build.go 1259-1260, 868-883).
`loseFailed` / `loseSucceeded`: the CAS failed and `Status()` reads a
terminal state; the recorded outcome is returned (build.go 1261-1268).
`broadcast`: the winner finishes with outcome `e`, having invoked the
backend iff `b`; it stores the terminal status and error and wakes every
subscriber with `e` (build.go 885-899, 1273-1276). -/
inductive Step : RunState → RunState → Prop
  | claimWin (s : RunState) (i : Nat) (t : ThreadState)
      (ht : s.threads[i]? = some t) (hpc : t.pc = .start)
      (hst : s.status = .Pending) :
      Step s { s with
        status := .InProgress
        threads := s.threads.set i ⟨.running, t.ret⟩
        claims := s.claims + 1 }
  | loseInProgress (s : RunState) (i : Nat) (t : ThreadState)
      (ht : s.threads[i]? = some t) (hpc : t.pc = .start)
      (hst : s.status = .InProgress) :
      Step s { s with threads := s.threads.set i ⟨.waiting, t.ret⟩ }
  | loseFailed (s : RunState) (i : Nat) (t : ThreadState) (m : String)
      (ht : s.threads[i]? = some t) (hpc : t.pc = .start)
      (hst : s.status = .Failed) (herr : s.err = some m) :
      Step s { s with threads := s.threads.set i ⟨.done, some (some m)⟩ }
  | loseSucceeded (s : RunState) (i : Nat) (t : ThreadState)
      (ht : s.threads[i]? = some t) (hpc : t.pc = .start)
      (hst : s.status = .Succeeded) :
      Step s { s with threads := s.threads.set i ⟨.done, some none⟩ }
  | broadcast (s : RunState) (i : Nat) (t : ThreadState) (e : Option String) (b : Bool)
      (ht : s.threads[i]? = some t) (hpc : t.pc = .running) :
      Step s { s with
        status := terminalStatusOf e
        err := match e with | some m => some m | none => s.err
        threads := deliver e (s.threads.set i ⟨.done, some e⟩)
        backendCalls := s.backendCalls + (if b then 1 else 0)
        outcome := some e }

/-- Reachability from a state via the protocol. -/
def Reachable (s t : RunState) : Prop :=
  Relation.ReflTransGen Step s t

/-- Number of threads currently inside the build body (claim winners that
have not yet broadcast). -/
def countRunning (ts : List ThreadState) : Nat :=
  ts.countP (fun t => t.pc = .running)

/-- Protocol invariant at a given status phase. It ties the ghost counters
to the phase, forces all completed callers' return values to agree with the
broadcast outcome, and pins the error cell to the `Failed` phase. -/
def InvAt : BuildStatus → RunState → Prop
  | .Pending, s =>
      s.claims = 0 ∧ s.backendCalls = 0 ∧ s.outcome = none ∧ s.err = none ∧
      ∀ t ∈ s.threads, t.pc = .start ∧ t.ret = none
  | .InProgress, s =>
      s.claims = 1 ∧ s.backendCalls = 0 ∧ s.outcome = none ∧ s.err = none ∧
      countRunning s.threads = 1 ∧
      ∀ t ∈ s.threads, (t.pc = .start ∨ t.pc = .running ∨ t.pc = .waiting) ∧ t.ret = none
  | .Failed, s =>
      s.claims = 1 ∧ s.backendCalls ≤ 1 ∧
      ∃ m, s.err = some m ∧ s.outcome = some (some m) ∧
        ∀ t ∈ s.threads, (t.pc = .start ∧ t.ret = none) ∨ (t.pc = .done ∧ t.ret = some (some m))
  | .Succeeded, s =>
      s.claims = 1 ∧ s.backendCalls ≤ 1 ∧ s.err = none ∧ s.outcome = some none ∧
      ∀ t ∈ s.threads, (t.pc = .start ∧ t.ret = none) ∨ (t.pc = .done ∧ t.ret = some none)

/-- Protocol invariant of a run state. -/
def Inv (s : RunState) : Prop :=
  InvAt s.status s

theorem countP_set (p : ThreadState → Bool) :
    ∀ (l : List ThreadState) (i : Nat) (a t : ThreadState), l[i]? = some t →
      (l.set i a).countP p + (if p t then 1 else 0) = l.countP p + (if p a then 1 else 0) := by
  intro l
  induction l with
  | nil => intro i a t h; simp at h
  | cons x xs ih =>
    intro i a t h
    cases i with
    | zero =>
      simp only [List.getElem?_cons_zero, Option.some.injEq] at h
      subst h
      simp only [List.set_cons_zero, List.countP_cons]
      omega
    | succ j =>
      simp only [List.getElem?_cons_succ] at h
      simp only [List.set_cons_succ, List.countP_cons]
      have := ih j a t h
      omega

theorem inv_init (n : Nat) : Inv (RunState.init n) := by
  refine ⟨rfl, rfl, rfl, rfl, ?_⟩
  intro t ht
  have := List.eq_of_mem_replicate ht
  subst this
  exact ⟨rfl, rfl⟩

theorem inv_step {s t : RunState} (hs : Inv s) (h : Step s t) : Inv t := by
  cases h with
  | claimWin i w ht hpc hst =>
    have hs' : InvAt s.status s := hs
    rw [hst] at hs'
    obtain ⟨hc, hb, ho, he, hall⟩ := hs'
    have hwmem : w ∈ s.threads := List.getElem?_mem ht
    have hwret : w.ret = none := (hall w hwmem).2
    refine ⟨by show s.claims + 1 = 1; omega, hb, ho, he, ?_, ?_⟩
    · have h0 : s.threads.countP (fun u => u.pc = .running) = 0 :=
        List.countP_eq_zero.mpr (by
          intro u hu
          have := (hall u hu).1
          simp [this])
      have hset := countP_set (fun u => u.pc = .running) s.threads i ⟨.running, w.ret⟩ w ht
      have hpw : (decide (w.pc = ThreadPC.running)) = false := by
        rw [hpc]; rfl
      rw [countRunning]
      simp only [hpw, h0] at hset
      simpa using hset
    · intro u hu
      rcases List.mem_or_eq_of_mem_set hu with hu' | hu'
      · exact ⟨Or.inl (hall u hu').1, (hall u hu').2⟩
      · subst hu'
        exact ⟨Or.inr (Or.inl rfl), hwret⟩
  | loseInProgress i w ht hpc hst =>
    have hs' : InvAt s.status s := hs
    rw [hst] at hs'
    obtain ⟨hc, hb, ho, he, hcount, hall⟩ := hs'
    have hwmem : w ∈ s.threads := List.getElem?_mem ht
    have hwret : w.ret = none := (hall w hwmem).2
    show InvAt s.status _
    rw [hst]
    refine ⟨hc, hb, ho, he, ?_, ?_⟩
    · have hset := countP_set (fun u => u.pc = .running) s.threads i ⟨.waiting, w.ret⟩ w ht
      have hpw : (decide (w.pc = ThreadPC.running)) = false := by
        rw [hpc]; rfl
      rw [countRunning] at hcount ⊢
      simp only [hpw, hcount] at hset
      simpa using hset
    · intro u hu
      rcases List.mem_or_eq_of_mem_set hu with hu' | hu'
      · exact ⟨(hall u hu').1, (hall u hu').2⟩
      · subst hu'
        exact ⟨Or.inr (Or.inr rfl), hwret⟩
  | loseFailed i w m ht hpc hst herr =>
    have hs' : InvAt s.status s := hs
    rw [hst] at hs'
    obtain ⟨hc, hb, m', hm', ho, hall⟩ := hs'
    have hmm : m' = m := by
      rw [herr] at hm'
      exact (Option.some.inj hm').symm
    subst hmm
    show InvAt s.status _
    rw [hst]
    refine ⟨hc, hb, m', hm', ho, ?_⟩
    intro u hu
    rcases List.mem_or_eq_of_mem_set hu with hu' | hu'
    · exact hall u hu'
    · subst hu'
      exact Or.inr ⟨rfl, rfl⟩
  | loseSucceeded i w ht hpc hst =>
    have hs' : InvAt s.status s := hs
    rw [hst] at hs'
    obtain ⟨hc, hb, he, ho, hall⟩ := hs'
    show InvAt s.status _
    rw [hst]
    refine ⟨hc, hb, he, ho, ?_⟩
    intro u hu
    rcases List.mem_or_eq_of_mem_set hu with hu' | hu'
    · exact hall u hu'
    · subst hu'
      exact Or.inr ⟨rfl, rfl⟩
  | broadcast i w e b ht hpc =>
    have hwmem : w ∈ s.threads := List.getElem?_mem ht
    have hst : s.status = .InProgress := by
      have hs' : InvAt s.status s := hs
      cases hcs : s.status with
      | Pending =>
        rw [hcs] at hs'
        have := (hs'.2.2.2.2 w hwmem).1
        rw [hpc] at this
        cases this
      | InProgress => rfl
      | Failed =>
        rw [hcs] at hs'
        obtain ⟨_, _, m', _, _, hall⟩ := hs'
        rcases hall w hwmem with ⟨hw1, _⟩ | ⟨hw1, _⟩ <;> rw [hpc] at hw1 <;> cases hw1
      | Succeeded =>
        rw [hcs] at hs'
        obtain ⟨_, _, _, _, hall⟩ := hs'
        rcases hall w hwmem with ⟨hw1, _⟩ | ⟨hw1, _⟩ <;> rw [hpc] at hw1 <;> cases hw1
    have hs' : InvAt s.status s := hs
    rw [hst] at hs'
    obtain ⟨hc, hb, ho, he, hcount, hall⟩ := hs'
    have hsetcount : (s.threads.set i ⟨.done, some e⟩).countP (fun u => u.pc = .running) = 0 := by
      have hset := countP_set (fun u => u.pc = .running) s.threads i ⟨.done, some e⟩ w ht
      have hpw : (decide (w.pc = ThreadPC.running)) = true := by rw [hpc]; rfl
      rw [countRunning] at hcount
      simp only [hpw, hcount] at hset
      simpa using hset
    have hnorun : ∀ u ∈ s.threads.set i ⟨.done, some e⟩, ¬(u.pc = ThreadPC.running) := by
      intro u hu hru
      have := List.countP_eq_zero.mp hsetcount u hu
      simp [hru] at this
    have hmemdeliver :
        ∀ u ∈ deliver e (s.threads.set i ⟨.done, some e⟩),
          (u.pc = ThreadPC.start ∧ u.ret = none) ∨ (u.pc = ThreadPC.done ∧ u.ret = some e) := by
      intro u hu
      rw [deliver] at hu
      rcases List.mem_map.mp hu with ⟨v, hv, hvu⟩
      rcases List.mem_or_eq_of_mem_set hv with hv' | hv'
      · have hvpc := (hall v hv').1
        have hvret := (hall v hv').2
        rcases hvpc with hp | hp | hp
        · left
          rw [← hvu]
          simp [hp, hvret]
        · exact absurd hp (hnorun v hv)
        · right
          rw [← hvu]
          simp [hp]
      · subst hv'
        right
        rw [← hvu]
        simp
    have hble : s.backendCalls + (if b = true then 1 else 0) ≤ 1 := by
      rw [hb]
      cases b <;> simp
    cases e with
    | none => exact ⟨hc, hble, he, rfl, hmemdeliver⟩
    | some m => exact ⟨hc, hble, m, rfl, rfl, hmemdeliver⟩

theorem inv_reachable {n : Nat} {s : RunState} (h : Reachable (RunState.init n) s) : Inv s := by
  induction h with
  | refl => exact inv_init n
  | tail _ hstep ih => exact inv_step ih hstep



/-- Claim C1: for every module and every set of concurrent Build callers,
the backend build is invoked at most once across the whole run — the
successful compare-and-swap of `Module.claim` (build.go 860-866) happens at
most once, only its winner reaches the build body of `Module.Build`
(build.go 1256-1291), and every other caller that finishes receives exactly
the outcome the winner broadcasts. -/
theorem build_backend_at_most_once (n : Nat) (s : RunState)
    (h : Reachable (RunState.init n) s) :
    s.backendCalls ≤ 1 ∧ s.claims ≤ 1 ∧
      ∀ t ∈ s.threads, ∀ r, t.ret = some r → s.outcome = some r := by
  have hinv : InvAt s.status s := inv_reachable h
  cases hcs : s.status with
  | Pending =>
    rw [hcs] at hinv
    obtain ⟨hc, hb, ho, he, hall⟩ := hinv
    refine ⟨by omega, by omega, ?_⟩
    intro t ht r hr
    rw [(hall t ht).2] at hr
    cases hr
  | InProgress =>
    rw [hcs] at hinv
    obtain ⟨hc, hb, ho, he, hcount, hall⟩ := hinv
    refine ⟨by omega, by omega, ?_⟩
    intro t ht r hr
    rw [(hall t ht).2] at hr
    cases hr
  | Failed =>
    rw [hcs] at hinv
    obtain ⟨hc, hb, m, hm, ho, hall⟩ := hinv
    refine ⟨hb, by omega, ?_⟩
    intro t ht r hr
    rcases hall t ht with ⟨_, h2⟩ | ⟨_, h2⟩
    · rw [h2] at hr; cases hr
    · rw [h2] at hr
      rw [ho, Option.some.inj hr]
  | Succeeded =>
    rw [hcs] at hinv
    obtain ⟨hc, hb, he, ho, hall⟩ := hinv
    refine ⟨hb, by omega, ?_⟩
    intro t ht r hr
    rcases hall t ht with ⟨_, h2⟩ | ⟨_, h2⟩
    · rw [h2] at hr; cases hr
    · rw [h2] at hr
      rw [ho, Option.some.inj hr]

/-- Witness for C1: a concrete two-caller interleaving — caller 0 wins the
claim, caller 1 subscribes, caller 0 broadcasts success after one backend
invocation — reaches a state where the theorem yields at most one backend
call and agreement of the subscriber's outcome. -/
theorem build_backend_at_most_once_witness :
    ({ status := .Succeeded, err := none,
       threads := [⟨.done, some none⟩, ⟨.done, some none⟩],
       claims := 1, backendCalls := 1, outcome := some none } : RunState).backendCalls ≤ 1 ∧
    ({ status := .Succeeded, err := none,
       threads := [⟨.done, some none⟩, ⟨.done, some none⟩],
       claims := 1, backendCalls := 1, outcome := some none } : RunState).claims ≤ 1 := by
  have h1 : Step (RunState.init 2)
      { status := .InProgress, err := none,
        threads := [⟨.running, none⟩, ⟨.start, none⟩],
        claims := 1, backendCalls := 0, outcome := none } :=
    Step.claimWin (RunState.init 2) 0 ⟨.start, none⟩ rfl rfl rfl
  have h2 : Step
      { status := .InProgress, err := none,
        threads := [⟨.running, none⟩, ⟨.start, none⟩],
        claims := 1, backendCalls := 0, outcome := none }
      { status := .InProgress, err := none,
        threads := [⟨.running, none⟩, ⟨.waiting, none⟩],
        claims := 1, backendCalls := 0, outcome := none } :=
    Step.loseInProgress _ 1 ⟨.start, none⟩ rfl rfl rfl
  have h3 : Step
      { status := .InProgress, err := none,
        threads := [⟨.running, none⟩, ⟨.waiting, none⟩],
        claims := 1, backendCalls := 0, outcome := none }
      { status := .Succeeded, err := none,
        threads := [⟨.done, some none⟩, ⟨.done, some none⟩],
        claims := 1, backendCalls := 1, outcome := some none } :=
    Step.broadcast _ 0 ⟨.running, none⟩ none true rfl rfl
  have hr : Reachable (RunState.init 2)
      { status := .Succeeded, err := none,
        threads := [⟨.done, some none⟩, ⟨.done, some none⟩],
        claims := 1, backendCalls := 1, outcome := some none } :=
    Relation.ReflTransGen.head h1 (Relation.ReflTransGen.head h2
      (Relation.ReflTransGen.head h3 Relation.ReflTransGen.refl))
  have := build_backend_at_most_once 2 _ hr
  exact ⟨this.1, this.2.1⟩

/-- Claim C3: along every reachable step of the protocol, `status` moves
only `Pending → InProgress` (the claim CAS), or `InProgress → Failed` or
`InProgress → Succeeded` (the broadcast), or stays put; once a terminal
status is reached it never changes. -/
theorem status_transitions_strict (n : Nat) (s s' : RunState)
    (hr : Reachable (RunState.init n) s) (hs : Step s s') :
    (s'.status = s.status ∨
      (s.status = .Pending ∧ s'.status = .InProgress) ∨
      (s.status = .InProgress ∧ (s'.status = .Succeeded ∨ s'.status = .Failed))) ∧
    (s.status.isTerminal = true → s'.status = s.status) := by
  have hinv : InvAt s.status s := inv_reachable hr
  cases hs with
  | claimWin i w ht hpc hst =>
    constructor
    · exact Or.inr (Or.inl ⟨hst, rfl⟩)
    · intro hterm
      rw [hst] at hterm
      cases hterm
  | loseInProgress i w ht hpc hst => exact ⟨Or.inl rfl, fun _ => rfl⟩
  | loseFailed i w m ht hpc hst herr => exact ⟨Or.inl rfl, fun _ => rfl⟩
  | loseSucceeded i w ht hpc hst => exact ⟨Or.inl rfl, fun _ => rfl⟩
  | broadcast i w e b ht hpc =>
    have hwmem : w ∈ s.threads := List.getElem?_mem ht
    have hst : s.status = .InProgress := by
      cases hcs : s.status with
      | Pending =>
        rw [hcs] at hinv
        have := (hinv.2.2.2.2 w hwmem).1
        rw [hpc] at this
        cases this
      | InProgress => rfl
      | Failed =>
        rw [hcs] at hinv
        obtain ⟨_, _, m', _, _, hall⟩ := hinv
        rcases hall w hwmem with ⟨hw1, _⟩ | ⟨hw1, _⟩ <;> rw [hpc] at hw1 <;> cases hw1
      | Succeeded =>
        rw [hcs] at hinv
        obtain ⟨_, _, _, _, hall⟩ := hinv
        rcases hall w hwmem with ⟨hw1, _⟩ | ⟨hw1, _⟩ <;> rw [hpc] at hw1 <;> cases hw1
    constructor
    · refine Or.inr (Or.inr ⟨hst, ?_⟩)
      cases e with
      | none => exact Or.inl rfl
      | some m => exact Or.inr rfl
    · intro hterm
      rw [hst] at hterm
      cases hterm

/-- Witness for C3: the theorem applied to the concrete first step of a
two-caller run (the winning claim), whose transition is exactly
`Pending → InProgress`. -/
theorem status_transitions_strict_witness :
    (({ status := .InProgress, err := none,
        threads := [⟨.running, none⟩, ⟨.start, none⟩],
        claims := 1, backendCalls := 0, outcome := none } : RunState).status = (RunState.init 2).status ∨
      ((RunState.init 2).status = .Pending ∧
        ({ status := .InProgress, err := none,
           threads := [⟨.running, none⟩, ⟨.start, none⟩],
           claims := 1, backendCalls := 0, outcome := none } : RunState).status = .InProgress) ∨
      ((RunState.init 2).status = .InProgress ∧
        (({ status := .InProgress, err := none,
            threads := [⟨.running, none⟩, ⟨.start, none⟩],
            claims := 1, backendCalls := 0, outcome := none } : RunState).status = .Succeeded ∨
          ({ status := .InProgress, err := none,
             threads := [⟨.running, none⟩, ⟨.start, none⟩],
             claims := 1, backendCalls := 0, outcome := none } : RunState).status = .Failed))) ∧
    ((RunState.init 2).status.isTerminal = true →
      ({ status := .InProgress, err := none,
         threads := [⟨.running, none⟩, ⟨.start, none⟩],
         claims := 1, backendCalls := 0, outcome := none } : RunState).status = (RunState.init 2).status) := by
  have h1 : Step (RunState.init 2)
      { status := .InProgress, err := none,
        threads := [⟨.running, none⟩, ⟨.start, none⟩],
        claims := 1, backendCalls := 0, outcome := none } :=
    Step.claimWin (RunState.init 2) 0 ⟨.start, none⟩ rfl rfl rfl
  exact status_transitions_strict 2 (RunState.init 2) _ Relation.ReflTransGen.refl h1
/-! ## Broadcast store order (build.go 885-899) and the lock-free reader

`Module.broadcast` holds the subscriber lock, but the error cell and the
status cell are written by two separate atomic stores, and the losing
`Build` caller at build.go 1256-1271 reads both WITHOUT taking that lock:
it loads `status` (atomic.LoadInt32 via `Status()`) and then loads the
error pointer (atomic.LoadPointer). The micro model below records the
exact order of the two stores in the failure branch of `broadcast`.
-/

/-- Shared cells of one module visible to a lock-free reader: the atomic
`status` word and the atomic error pointer (nil = `none`). -/
structure ModuleCell where
  status : BuildStatus
  err : Option String
  deriving DecidableEq, Repr

/-- One atomic store performed by `Module.broadcast`. -/
inductive AtomicWrite
  | setStatus (s : BuildStatus)
  | storeErr (m : String)
  deriving DecidableEq, Repr

/-- Effect of one atomic store on the shared cells. -/
def applyWrite (c : ModuleCell) : AtomicWrite → ModuleCell
  | .setStatus s => { c with status := s }
  | .storeErr m => { c with err := some m }

/-- Effect of a sequence of atomic stores. -/
def applyWrites (c : ModuleCell) (ws : List AtomicWrite) : ModuleCell :=
  ws.foldl applyWrite c

/-- Exact store order of the failure branch of `Module.broadcast`
(build.go 888-891): FIRST `setStatus(BuildStatusFailed)`, THEN
`atomic.StorePointer(&m.err, ...)`. -/
def broadcastFailWrites (msg : String) : List AtomicWrite :=
  [.setStatus .Failed, .storeErr msg]

/-- Claim C4 (code bug): the source stores `BuildStatusFailed` strictly
BEFORE publishing the error pointer, so after the first of the two atomic
stores the shared cells read `(Failed, none)`: a concurrent lock-free
reader in `Module.Build` (build.go 1261-1264) that observes `Failed` at
that instant loads a nil error pointer and hits `panic("unreachable")`.
The claim and spec require the opposite order (error published before the
terminal status store), under which no `(Failed, none)` prefix state would
exist. -/
theorem error_published_after_failed_store :
    applyWrites ⟨.InProgress, none⟩ ((broadcastFailWrites "build failed").take 1) =
      ⟨.Failed, none⟩ ∧
    applyWrites ⟨.InProgress, none⟩ (broadcastFailWrites "build failed") =
      ⟨.Failed, some "build failed"⟩ := by
  exact ⟨rfl, rfl⟩

/-! ## The build pipeline `Module.doBuild` (build.go 1209-1254)

`Module.doBuild` runs, in order: the pre-build hook (unless `SkipHooks`),
`loadBuildContext`, digest computation, the cache lookup `CachedDigest`
(build.go 564-574), the cache-hit check, `Archive`, the backend build
dispatch `doBuild` (build.go 1169-1207), the digest persist `cacheDigest`,
and the post-build hook. Every fallible collaborator is abstracted into an
environment `DoBuildEnv` recording its outcome; the function returns the
Go error (as `Option String`) together with the ordered trace of effects
actually performed.
-/

/-- Options of one build (the fields of `BuildOptions` read by the module
scheduler: `NoCache`, `SkipHooks`, `NoPush`, `Builder`, `Repository`,
`Tag`). -/
structure BuildOptions where
  noCache : Bool
  skipHooks : Bool
  noPush : Bool
  builder : String
  repository : String
  tag : String
  deriving DecidableEq, Repr

/-- Outcome of the digest-cache read attempted by `Module.CachedDigest`
(build.go 564-574): the file content, a read failure, or a failure to even
derive the cache path. -/
inductive CacheRead
  | ok (digest : String)
  | readErr
  | pathErr (e : String)
  deriving DecidableEq, Repr

/-- Errors of `Module.CachedDigest`: the sentinel `ErrModuleNotCached`
(build.go 562) or a path-derivation error. -/
inductive CacheErr
  | notCached
  | ioErr (e : String)
  deriving DecidableEq, Repr

/-- Model of `Module.CachedDigest` (build.go 564-574): a path-derivation
error is returned as-is; ANY `ReadFile` failure (missing file or
unreadable file alike) is collapsed into `ErrModuleNotCached`. -/
def Module.CachedDigest : CacheRead → Except CacheErr String
  | .pathErr e => .error (.ioErr e)
  | .readErr => .error .notCached
  | .ok d => .ok d

/-- Outcome of the digest computation `buildContext.Digest` (build.go
1221-1224). -/
inductive DigestOutcome
  | ok (digest : String)
  | fail (e : String)
  deriving DecidableEq, Repr

/-- Observable side effects of one `Module.doBuild` run. -/
inductive Effect
  | preHook
  | backend
  | cacheWrite
  | postHook
  deriving DecidableEq, Repr

/-- Outcomes of one `Module.doBuild` run coming from its collaborators;
`none` everywhere means the operation succeeded. -/
structure DoBuildEnv where
  beforeHook : Option String
  loadCtx : Option String
  digestRes : DigestOutcome
  cacheRead : CacheRead
  archiveErr : Option String
  backendErr : Option String
  cacheWriteErr : Option String
  afterHook : Option String
  deriving DecidableEq, Repr

/-- Result of the builder dispatch: either a backend engine was invoked
(with its optional error), or the builder name was unknown and nothing ran. -/
inductive DispatchResult
  | invoked (err : Option String)
  | unknownBuilder (msg : String)
  deriving DecidableEq, Repr

/-- Model of the free function `doBuild` (build.go 1169-1207): dispatch on
`options.Builder` — empty string and `docker` invoke the docker backend,
`kaniko` invokes the kaniko backend (errors get the builder label), any
other value returns an unknown-builder error WITHOUT invoking a backend. -/
def doBuildDispatch (builder : String) (backendErr : Option String) :
    DispatchResult :=
  if builder = "" ∨ builder = "docker" then
    .invoked (backendErr.map (fun e => "docker: " ++ e))
  else if builder = "kaniko" then
    .invoked (backendErr.map (fun e => "kaniko: " ++ e))
  else .unknownBuilder ("unknown builder '" ++ builder ++ "'")

/-- Body of `Module.doBuild` after the pre-build hook (build.go 1215-1253):
load the context, digest it, read the cached digest (treating
`ErrModuleNotCached` as an empty cached digest), return nil on a cache hit
with `NoCache` unset, otherwise archive, run the backend, persist the
digest, and run the post-build hook. -/
def Module.doBuildCore (env : DoBuildEnv) (o : BuildOptions) :
    Option String × List Effect :=
  match env.loadCtx with
  | some e => (some e, [])
  | none =>
  match env.digestRes with
  | .fail e => (some e, [])
  | .ok digest =>
  match Module.CachedDigest env.cacheRead with
  | .error (.ioErr e) => (some e, [])
  | cres =>
  if (digest == match cres with | .ok d => d | _ => "") && !o.noCache then (none, [])
  else
  match env.archiveErr with
  | some e => (some e, [])
  | none =>
  match doBuildDispatch o.builder env.backendErr with
  | .unknownBuilder msg => (some msg, [])
  | .invoked (some e) => (some e, [Effect.backend])
  | .invoked none =>
  match env.cacheWriteErr with
  | some e => (some e, [Effect.backend, Effect.cacheWrite])
  | none =>
  if !o.skipHooks then
    match env.afterHook with
    | some e => (some ("post-build hook failure: " ++ e),
        [Effect.backend, Effect.cacheWrite, Effect.postHook])
    | none => (none, [Effect.backend, Effect.cacheWrite, Effect.postHook])
  else (none, [Effect.backend, Effect.cacheWrite])

/-- Model of `Module.doBuild` (build.go 1209-1254): the pre-build hook runs
first (unless `SkipHooks`), BEFORE the build context is even loaded; a hook
failure aborts with a labelled error, otherwise the core pipeline runs. -/
def Module.doBuild (env : DoBuildEnv) (o : BuildOptions) :
    Option String × List Effect :=
  if !o.skipHooks then
    match env.beforeHook with
    | some e => (some ("pre-build hook failure: " ++ e), [Effect.preHook])
    | none =>
      match Module.doBuildCore env o with
      | (r, fx) => (r, Effect.preHook :: fx)
  else Module.doBuildCore env o

/-! ## The digest cache write `Module.cacheDigest` (build.go 576-591) -/

/-- Filesystem operations a cache write could perform. -/
inductive FsOp
  | mkdirAll (dir : String)
  | writeFile (path content : String)
  | writeTempFile (path content : String)
  | renameFile (src dst : String)
  deriving DecidableEq, Repr

/-- Model of `Module.cacheDigest` (build.go 576-591): stat the parent
directory of the digest path, create it when absent, then write the digest
DIRECTLY to the final path with `ioutil.WriteFile`. No temporary file is
created and no rename is performed. -/
def Module.cacheDigestOps (path digest : String) (dirExists : Bool) : List FsOp :=
  (if dirExists then [] else [.mkdirAll (goDir path)]) ++ [.writeFile path digest]

/-! ## Dependency aggregation (build.go 593-619) -/

/-- Loop body of `collectErrors` (build.go 593-601): receive each result in
declared order and append every non-nil error to the multierror. -/
def collectErrorsAux : Option (List String) → List (Option String) → Option (List String)
  | multi, [] => multi
  | multi, none :: rest => collectErrorsAux multi rest
  | multi, some e :: rest => collectErrorsAux (some (multi.getD [] ++ [e])) rest

/-- Model of `collectErrors` (build.go 593-601): the multierror is `none`
when no dependency failed, otherwise the list of failure messages in
arrival (declared) order. Receiving from EVERY channel models that every
dependency build is awaited; a failure never short-circuits the loop. -/
def collectErrors (results : List (Option String)) : Option (List String) :=
  collectErrorsAux none results

/-- Model of `Module.buildDependencies` (build.go 603-619): each dependency
is `(Dir, Build result)`; a failing result is prefixed with the
dependency directory (`"%s: %v"`, build.go 612) and the wrapped results
are aggregated by `collectErrors` in declared order. -/
def Module.buildDependencies (deps : List (String × Option String)) : Option (List String) :=
  collectErrors (deps.map (fun p => p.2.map (fun e => p.1 ++ ": " ++ e)))


/-! ## Helper lemmas about the build pipeline -/

theorem preHook_not_in_core (env : DoBuildEnv) (o : BuildOptions) :
    Effect.preHook ∉ (Module.doBuildCore env o).2 := by
  obtain ⟨bh, lc, dr, cr, ae, be, cw, ah⟩ := env
  obtain ⟨nc, sh, np, bu, rp, tg⟩ := o
  unfold Module.doBuildCore doBuildDispatch Module.CachedDigest
  repeat' split
  all_goals simp_all

theorem postHook_core (env : DoBuildEnv) (o : BuildOptions) :
    (Effect.postHook ∈ (Module.doBuildCore env o).2 → Effect.backend ∈ (Module.doBuildCore env o).2) ∧
    (Effect.postHook ∈ (Module.doBuildCore env o).2 ↔
      o.skipHooks = false ∧ Effect.cacheWrite ∈ (Module.doBuildCore env o).2 ∧
      env.cacheWriteErr = none) := by
  obtain ⟨bh, lc, dr, cr, ae, be, cw, ah⟩ := env
  obtain ⟨nc, sh, np, bu, rp, tg⟩ := o
  unfold Module.doBuildCore doBuildDispatch Module.CachedDigest
  repeat' split
  all_goals simp_all

theorem core_cache_hit (env : DoBuildEnv) (o : BuildOptions) (d : String)
    (hld : env.loadCtx = none) (hdg : env.digestRes = .ok d)
    (hcr : env.cacheRead = .ok d) (hnc : o.noCache = false) :
    Module.doBuildCore env o = (none, []) := by
  obtain ⟨bh, lc, dr, cr, ae, be, cw, ah⟩ := env
  obtain ⟨nc, sh, np, bu, rp, tg⟩ := o
  simp only at hld hdg hcr hnc
  subst hld hdg hcr hnc
  unfold Module.doBuildCore Module.CachedDigest
  simp

theorem core_cacheWrite_some (env : DoBuildEnv) (o : BuildOptions) (e : String)
    (h1 : env.cacheWriteErr = some e)
    (h2 : Effect.cacheWrite ∈ (Module.doBuildCore env o).2) :
    (Module.doBuildCore env o).1 = some e := by
  obtain ⟨bh, lc, dr, cr, ae, be, cw, ah⟩ := env
  obtain ⟨nc, sh, np, bu, rp, tg⟩ := o
  simp only at h1
  subst h1
  rcases hcc : Module.doBuildCore ⟨bh, lc, dr, cr, ae, be, some e, ah⟩ ⟨nc, sh, np, bu, rp, tg⟩ with ⟨r, fx⟩
  rw [hcc] at h2
  unfold Module.doBuildCore doBuildDispatch Module.CachedDigest at hcc
  repeat' split at hcc
  all_goals (injection hcc with hr hfx; subst hr; subst hfx; simp_all)

theorem core_not_cached_rebuilds (env : DoBuildEnv) (o : BuildOptions) (d : String)
    (hcr : env.cacheRead = .readErr) (hld : env.loadCtx = none)
    (hdg : env.digestRes = .ok d) (hd : d ≠ "") (har : env.archiveErr = none)
    (hbu : o.builder = "") :
    Effect.backend ∈ (Module.doBuildCore env o).2 := by
  obtain ⟨bh, lc, dr, cr, ae, be, cw, ah⟩ := env
  obtain ⟨nc, sh, np, bu, rp, tg⟩ := o
  simp only at hcr hld hdg har hbu
  subst hcr hld hdg har hbu
  unfold Module.doBuildCore doBuildDispatch Module.CachedDigest
  have hne : (d == "") = false := by simp [hd]
  simp only [hne, Bool.false_and, if_neg]
  cases be <;> cases cw <;> cases sh <;> cases ah <;> simp
/-- Claim C2: when the freshly computed digest equals the cached digest and
`NoCache` is false, `Module.doBuild` (build.go 1229-1231) returns nil
without invoking the backend at all, and the nil result makes `broadcast`
move the module directly to `Succeeded`. -/
theorem cache_hit_skips_backend (env : DoBuildEnv) (o : BuildOptions) (d : String)
    (hld : env.loadCtx = none) (hdg : env.digestRes = .ok d)
    (hcr : env.cacheRead = .ok d) (hnc : o.noCache = false) :
    Effect.backend ∉ (Module.doBuild env o).2 ∧
    ((o.skipHooks = true ∨ env.beforeHook = none) →
      (Module.doBuild env o).1 = none ∧
      terminalStatusOf (Module.doBuild env o).1 = .Succeeded) := by
  have hcore := core_cache_hit env o d hld hdg hcr hnc
  rcases hsh : o.skipHooks with hf | ht
  · rcases hbh : env.beforeHook with hb | e
    · have h2 : Module.doBuild env o = (none, [Effect.preHook]) := by
        simp [Module.doBuild, hsh, hbh, hcore]
      rw [h2]
      exact ⟨by simp, fun _ => ⟨rfl, rfl⟩⟩
    · have h2 : Module.doBuild env o =
          (some ("pre-build hook failure: " ++ e), [Effect.preHook]) := by
        simp [Module.doBuild, hsh, hbh]
      rw [h2]
      refine ⟨by simp, ?_⟩
      rintro (hc | hc)
      · cases hc
      · simp at hc
  · have h2 : Module.doBuild env o = (none, []) := by
      simp [Module.doBuild, hsh, hcore]
    rw [h2]
    exact ⟨by simp, fun _ => ⟨rfl, rfl⟩⟩

/-- Claim C5 as amended: with `SkipHooks` false the PRE-build hook runs on
every `Module.doBuild` invocation — including cache hits, because it runs
at build.go 1210-1214, before the cache check — while the POST-build hook
runs exactly when the backend build ran, succeeded, and the digest persist
succeeded (build.go 1248-1252). -/
theorem hooks_amended (env : DoBuildEnv) (o : BuildOptions) :
    (Effect.preHook ∈ (Module.doBuild env o).2 ↔ o.skipHooks = false) ∧
    (Effect.postHook ∈ (Module.doBuild env o).2 → Effect.backend ∈ (Module.doBuild env o).2) ∧
    (Effect.postHook ∈ (Module.doBuild env o).2 ↔
      o.skipHooks = false ∧ Effect.cacheWrite ∈ (Module.doBuild env o).2 ∧
      env.cacheWriteErr = none) := by
  have hcore := postHook_core env o
  have hpcnot := preHook_not_in_core env o
  rcases hcc : Module.doBuildCore env o with ⟨r, fx⟩
  rw [hcc] at hcore hpcnot
  rcases hsh : o.skipHooks with hf | ht
  · rw [hsh] at hcore
    rcases hbh : env.beforeHook with hb | e
    · have h2 : Module.doBuild env o = (r, Effect.preHook :: fx) := by
        simp [Module.doBuild, hsh, hbh, hcc]
      rw [h2]
      refine ⟨by simp, ?_, ?_⟩
      · intro h
        have hfx : Effect.postHook ∈ fx := by simpa using h
        exact List.mem_cons_of_mem _ (hcore.1 hfx)
      · have hiff : Effect.postHook ∈ Effect.preHook :: fx ↔ Effect.postHook ∈ fx := by simp
        have hiff2 : Effect.cacheWrite ∈ Effect.preHook :: fx ↔ Effect.cacheWrite ∈ fx := by simp
        rw [hiff, hiff2]
        exact hcore.2
    · have h2 : Module.doBuild env o =
          (some ("pre-build hook failure: " ++ e), [Effect.preHook]) := by
        simp [Module.doBuild, hsh, hbh]
      rw [h2]
      simp
  · rw [hsh] at hcore
    have h2 : Module.doBuild env o = (r, fx) := by
      simp [Module.doBuild, hsh, hcc]
    rw [h2]
    exact ⟨by simp [hpcnot], hcore.1, hcore.2⟩

/-- Claim C6 as amended: a missing or unreadable cache entry is collapsed
into `ErrModuleNotCached`, which `Module.doBuild` tolerates and proceeds to
the backend (a rebuild, not an error); but a failure to persist the new
digest IS returned by `Module.doBuild` (build.go 1245-1247), so the build
fails rather than still returning success. -/
theorem cache_advisory_amended (env : DoBuildEnv) (o : BuildOptions) (d e : String) :
    ((env.cacheRead = .readErr ∧ env.loadCtx = none ∧ env.digestRes = .ok d ∧ d ≠ "" ∧
      env.archiveErr = none ∧ o.builder = "" ∧
      (o.skipHooks = true ∨ env.beforeHook = none)) →
      Effect.backend ∈ (Module.doBuild env o).2) ∧
    ((env.cacheWriteErr = some e ∧ Effect.cacheWrite ∈ (Module.doBuild env o).2) →
      (Module.doBuild env o).1 = some e) := by
  constructor
  · rintro ⟨hcr, hld, hdg, hd, har, hbu, hhk⟩
    have hb := core_not_cached_rebuilds env o d hcr hld hdg hd har hbu
    rcases hsh : o.skipHooks with hf | ht
    · rcases hbh : env.beforeHook with hb2 | e2
      · have h2 : Module.doBuild env o =
            ((Module.doBuildCore env o).1, Effect.preHook :: (Module.doBuildCore env o).2) := by
          rcases hcc : Module.doBuildCore env o with ⟨r, fx⟩
          simp [Module.doBuild, hsh, hbh, hcc]
        rw [h2]
        exact List.mem_cons_of_mem _ hb
      · rcases hhk with hc | hc
        · simp [hsh] at hc
        · simp [hbh] at hc
    · have h2 : Module.doBuild env o = Module.doBuildCore env o := by
        simp [Module.doBuild, hsh]
      rw [h2]
      exact hb
  · rintro ⟨hcw, hmem⟩
    rcases hsh : o.skipHooks with hf | ht
    · rcases hbh : env.beforeHook with hb2 | e2
      · have h2 : Module.doBuild env o =
            ((Module.doBuildCore env o).1, Effect.preHook :: (Module.doBuildCore env o).2) := by
          rcases hcc : Module.doBuildCore env o with ⟨r, fx⟩
          simp [Module.doBuild, hsh, hbh, hcc]
        rw [h2] at hmem ⊢
        have hfx : Effect.cacheWrite ∈ (Module.doBuildCore env o).2 := by simpa using hmem
        exact core_cacheWrite_some env o e hcw hfx
      · have h2 : Module.doBuild env o =
            (some ("pre-build hook failure: " ++ e2), [Effect.preHook]) := by
          simp [Module.doBuild, hsh, hbh]
        rw [h2] at hmem
        simp at hmem
    · have h2 : Module.doBuild env o = Module.doBuildCore env o := by
        simp [Module.doBuild, hsh]
      rw [h2] at hmem ⊢
      exact core_cacheWrite_some env o e hcw hmem

/-- Witness for C2: a concrete environment whose fresh digest `"d1"`
equals the cached digest, with `NoCache` false: the backend effect is
absent and the result is success. -/
theorem cache_hit_skips_backend_witness :
    Effect.backend ∉ (Module.doBuild ⟨none, none, .ok "d1", .ok "d1", none, none, none, none⟩
      ⟨false, false, true, "", "", "latest"⟩).2 ∧
    (Module.doBuild ⟨none, none, .ok "d1", .ok "d1", none, none, none, none⟩
      ⟨false, false, true, "", "", "latest"⟩).1 = none := by
  have h := cache_hit_skips_backend ⟨none, none, .ok "d1", .ok "d1", none, none, none, none⟩
    ⟨false, false, true, "", "", "latest"⟩ "d1" rfl rfl rfl rfl
  exact ⟨h.1, (h.2 (Or.inr rfl)).1⟩

/-- Counterexample to claim C5 as stated: on a cache hit with `SkipHooks`
false the pre-build hook DOES run (it is the only effect) while no backend
build occurs, so "hooks run if and only if a backend build occurs" fails. -/
theorem hooks_run_iff_backend_counterexample :
    (Module.doBuild ⟨none, none, .ok "d1", .ok "d1", none, none, none, none⟩
      ⟨false, false, true, "", "", "latest"⟩).2 = [Effect.preHook] ∧
    ¬(Effect.preHook ∈ (Module.doBuild ⟨none, none, .ok "d1", .ok "d1", none, none, none, none⟩
        ⟨false, false, true, "", "", "latest"⟩).2 ↔
      Effect.backend ∈ (Module.doBuild ⟨none, none, .ok "d1", .ok "d1", none, none, none, none⟩
        ⟨false, false, true, "", "", "latest"⟩).2) := by
  exact ⟨by decide, by decide⟩

/-- Witness for C6 (amended): both arms at concrete inputs — an unreadable
cache entry still reaches the backend, and a digest-persist failure makes
the result exactly that error. -/
theorem cache_advisory_amended_witness :
    Effect.backend ∈ (Module.doBuild ⟨none, none, .ok "d2", .readErr, none, none, none, none⟩
      ⟨false, false, true, "", "", "latest"⟩).2 ∧
    (Module.doBuild ⟨none, none, .ok "d2", .readErr, none, none, some "disk full", none⟩
      ⟨false, false, true, "", "", "latest"⟩).1 = some "disk full" := by
  constructor
  · exact (cache_advisory_amended ⟨none, none, .ok "d2", .readErr, none, none, none, none⟩
      ⟨false, false, true, "", "", "latest"⟩ "d2" "x").1
      ⟨rfl, rfl, rfl, by decide, rfl, rfl, Or.inr rfl⟩
  · exact (cache_advisory_amended ⟨none, none, .ok "d2", .readErr, none, none, some "disk full", none⟩
      ⟨false, false, true, "", "", "latest"⟩ "d2" "disk full").2 ⟨rfl, by decide⟩

/-- Counterexample to claim C6 as stated: with every build step succeeding
but the digest persist failing, `Module.doBuild` returns the persist error
instead of success — the cache write is NOT best-effort in the code. -/
theorem cache_write_failure_counterexample :
    (Module.doBuild ⟨none, none, .ok "d2", .readErr, none, none, some "disk full", none⟩
      ⟨false, false, true, "", "", "latest"⟩).1 = some "disk full" ∧
    Effect.backend ∈ (Module.doBuild ⟨none, none, .ok "d2", .readErr, none, none, some "disk full", none⟩
      ⟨false, false, true, "", "", "latest"⟩).2 := by
  exact ⟨by decide, by decide⟩

/-- Claim C7 as amended: `Module.cacheDigest` creates the parent directory
when absent and then writes the digest DIRECTLY to the final cache path;
no rename and no temporary-file write ever occur, so the write is a plain
(non-atomic) `WriteFile`. -/
theorem cache_digest_write_amended (path digest : String) (dirExists : Bool) :
    (∀ src dst, FsOp.renameFile src dst ∉ Module.cacheDigestOps path digest dirExists) ∧
    (∀ p c, FsOp.writeTempFile p c ∉ Module.cacheDigestOps path digest dirExists) ∧
    (Module.cacheDigestOps path digest dirExists).getLast? = some (.writeFile path digest) := by
  cases dirExists <;> simp [Module.cacheDigestOps]

/-- Counterexample to claim C7 as stated: at a concrete digest path the
operation list is exactly a `MkdirAll` followed by a direct `WriteFile` of
the final path — it contains no temporary-file write and no rename, so the
claimed write-to-temp-then-rename protocol does not happen. -/
theorem cache_digest_atomic_counterexample :
    Module.cacheDigestOps "/root/.kindest/digests/abc123" "deadbeef" false =
      [.mkdirAll "/root/.kindest/digests", .writeFile "/root/.kindest/digests/abc123" "deadbeef"] ∧
    (Module.cacheDigestOps "/root/.kindest/digests/abc123" "deadbeef" false).all
      (fun op => match op with
        | FsOp.renameFile _ _ => false
        | FsOp.writeTempFile _ _ => false
        | _ => true) = true := by
  exact ⟨by decide, by decide⟩

theorem collectErrorsAux_some (acc : List String) (rs : List (Option String)) :
    collectErrorsAux (some acc) rs = some (acc ++ rs.filterMap id) := by
  induction rs generalizing acc with
  | nil => simp [collectErrorsAux]
  | cons r rest ih =>
    cases r with
    | none => simp [collectErrorsAux, ih]
    | some e =>
      simp only [collectErrorsAux, Option.getD_some, ih, List.filterMap_cons_some]
      simp

theorem collectErrors_eq (rs : List (Option String)) :
    collectErrors rs =
      (if (rs.filterMap id).isEmpty then none else some (rs.filterMap id)) := by
  induction rs with
  | nil => simp [collectErrors, collectErrorsAux]
  | cons r rest ih =>
    cases r with
    | none =>
      simp only [collectErrors, collectErrorsAux] at ih ⊢
      simpa using ih
    | some e =>
      simp only [collectErrors, collectErrorsAux, Option.getD_none, List.nil_append]
      rw [collectErrorsAux_some]
      simp

/-- Claim C8: `Module.buildDependencies` aggregates dependency failures
into a single multi-error holding exactly one entry per failing dependency,
each prefixed with that dependency's directory, in declared order; every
dependency result is consumed (a failure does not suppress later entries),
and the result is nil exactly when no dependency failed. -/
theorem build_dependencies_aggregation (deps : List (String × Option String)) :
    Module.buildDependencies deps =
      (if (deps.filterMap (fun p => p.2.map (fun e => p.1 ++ ": " ++ e))).isEmpty then none
       else some (deps.filterMap (fun p => p.2.map (fun e => p.1 ++ ": " ++ e)))) ∧
    (Module.buildDependencies deps = none ↔ ∀ p ∈ deps, p.2 = none) := by
  have hmain : Module.buildDependencies deps =
      (if (deps.filterMap (fun p => p.2.map (fun e => p.1 ++ ": " ++ e))).isEmpty then none
       else some (deps.filterMap (fun p => p.2.map (fun e => p.1 ++ ": " ++ e)))) := by
    rw [Module.buildDependencies, collectErrors_eq, List.filterMap_map]
    rfl
  refine ⟨hmain, ?_⟩
  rw [hmain]
  constructor
  · intro h
    by_cases hemp : (deps.filterMap (fun p => p.2.map (fun e => p.1 ++ ": " ++ e))).isEmpty
    · intro p hp
      rw [List.isEmpty_iff, List.filterMap_eq_nil_iff] at hemp
      have := hemp p hp
      cases hpp : p.2 with
      | none => rfl
      | some x => rw [hpp] at this; cases this
    · rw [if_neg hemp] at h
      cases h
  · intro h
    have hemp : (deps.filterMap (fun p => p.2.map (fun e => p.1 ++ ": " ++ e))).isEmpty := by
      rw [List.isEmpty_iff, List.filterMap_eq_nil_iff]
      intro p hp
      rw [h p hp]
      rfl
    rw [if_pos hemp]

/-! ## `resolveDockerfile` (build.go 246-266)

`resolveDockerfile` joins the manifest directory with the dockerfile and
context fields, splits both absolute paths on the path separator, and then
walks the common prefix. The loop bound is chosen by
`if m, o := len(dockerfileParts), len(contextParts); m < 0 ... else n = o`
— the condition `m < 0` is never true for a length, so the bound is ALWAYS
`len(contextParts)`, and the loop indexes `dockerfileParts[i]` for every
`i` below that bound.
-/

/-- Common-prefix loop of `resolveDockerfile` (build.go 259-264), with the
out-of-range access `dockerfileParts[i]` modelled as `none` (a Go runtime
panic). `i` is the loop counter, the second argument the remaining
iterations of the `i < n` loop. -/
def commonLoop (dp cp : List String) : Nat → Nat → Option Nat
  | i, 0 => some i
  | i, rem + 1 =>
    match dp[i]?, cp[i]? with
    | some a, some b => if a ≠ b then some i else commonLoop dp cp (i + 1) rem
    | _, _ => none

/-- Model of `resolveDockerfile` (build.go 246-266). `none` models the
index-out-of-range panic; `some` carries the returned slash-joined
relative path. -/
def resolveDockerfile (manifestPath dockerfilePath contextPath : String) : Option String :=
  let rootDir := goDir manifestPath
  let dockerfileAbs := goClean (goJoin rootDir dockerfilePath)
  let contextAbs := goClean (goJoin rootDir contextPath)
  let dockerfileParts := goSplitOn '/' dockerfileAbs
  let contextParts := goSplitOn '/' contextAbs
  let n := if dockerfileParts.length < 0 then dockerfileParts.length else contextParts.length
  (commonLoop dockerfileParts contextParts 0 n).map
    (fun common => goJoinList (dockerfileParts.drop common))

theorem commonLoop_none (dp cp : List String) (hlt : dp.length < cp.length)
    (hpre : ∀ j, j < dp.length → dp[j]? = cp[j]?) :
    ∀ rem i, i + rem = cp.length → i ≤ dp.length →
      commonLoop dp cp i rem = none := by
  intro rem
  induction rem with
  | zero =>
    intro i h0 h1
    exfalso
    omega
  | succ rem ih =>
    intro i h0 h1
    have hicp : i < cp.length := by omega
    have hcp : cp[i]? = some (cp.get ⟨i, hicp⟩) := by
      simp [List.getElem?_eq_getElem hicp]
    rcases Nat.lt_or_ge i dp.length with hid | hid
    · have hdp : dp[i]? = cp[i]? := hpre i hid
      rw [commonLoop, hdp, hcp]
      simp only [ne_eq, not_true_eq_false, if_neg, if_false]
      exact ih (i + 1) (by omega) (by omega)
    · have hdp : dp[i]? = none := by
        rw [List.getElem?_eq_none]
        omega
      rw [commonLoop, hdp, hcp]

/-- Claim C10: whenever the cleaned absolute dockerfile path is a strict
component-wise ancestor of the cleaned absolute context path (its component
list is a proper prefix of the context's), `resolveDockerfile` runs its
common-prefix loop to `len(contextParts)` — because the `m < 0` length
comparison never selects the shorter list — and indexes
`dockerfileParts[i]` past its end: a runtime panic (`none`), not an error
return. -/
theorem resolveDockerfile_strict_ancestor_panics (mp dfp ctp : String)
    (hlen : (goSplitOn '/' (goClean (goJoin (goDir mp) dfp))).length <
            (goSplitOn '/' (goClean (goJoin (goDir mp) ctp))).length)
    (hpre : goSplitOn '/' (goClean (goJoin (goDir mp) dfp)) =
            (goSplitOn '/' (goClean (goJoin (goDir mp) ctp))).take
              (goSplitOn '/' (goClean (goJoin (goDir mp) dfp))).length) :
    resolveDockerfile mp dfp ctp = none := by
  unfold resolveDockerfile
  have hn : (if (goSplitOn '/' (goClean (goJoin (goDir mp) dfp))).length < 0 then
      (goSplitOn '/' (goClean (goJoin (goDir mp) dfp))).length
    else (goSplitOn '/' (goClean (goJoin (goDir mp) ctp))).length) =
      (goSplitOn '/' (goClean (goJoin (goDir mp) ctp))).length := by
    simp
  have hpw : ∀ j, j < (goSplitOn '/' (goClean (goJoin (goDir mp) dfp))).length →
      (goSplitOn '/' (goClean (goJoin (goDir mp) dfp)))[j]? =
      (goSplitOn '/' (goClean (goJoin (goDir mp) ctp)))[j]? := by
    intro j hj
    rw [hpre]
    rw [List.getElem?_take]
    rw [hpre] at hj
    simp only [List.length_take] at hj
    rw [if_pos (by omega)]
  have hcl := commonLoop_none (goSplitOn '/' (goClean (goJoin (goDir mp) dfp)))
    (goSplitOn '/' (goClean (goJoin (goDir mp) ctp))) hlen hpw
    (goSplitOn '/' (goClean (goJoin (goDir mp) ctp))).length 0 (by omega) (by omega)
  simp only [hn, hcl]
  rfl

/-- Witness for C10: the concrete spec shape from the claim — an empty
`dockerfile` field with `context: sub` under manifest `/a/kindest.yaml` —
makes the dockerfile path `/a` a strict ancestor of the context path
`/a/sub`, and `resolveDockerfile` panics. -/
theorem resolveDockerfile_strict_ancestor_panics_witness :
    resolveDockerfile "/a/kindest.yaml" "" "sub" = none := by
  apply resolveDockerfile_strict_ancestor_panics
  · decide
  · decide

/-! ## `createDockerInclude` (build.go 723-771)

The include matcher is built by scanning the recipe: every trimmed line
that is non-blank, not a comment, and starts with `COPY` or `ADD`
contributes its first argument `rel = fields[1]` unless it starts with
`--from`. The argument is stat'ed (joined onto the context path); a
directory gets a trailing `/` appended to `rel`; then for every `i` the
code folds `filepath.Join` over `parts[:i+1]` of `strings.Split(rel, "/")`
and appends the result to `addedPaths` unless already present. The matcher
is the gitignore matcher over exactly these `addedPaths`; the model below
computes that path list. The stat outcome is an environment
`stat : String → Option Bool` (`some isDir`, `none` = stat error).
-/

/-- Append `x` unless already present — the `found` scan at build.go
753-762. -/
def dedupAppend (acc : List String) (x : String) : List String :=
  if acc.contains x then acc else acc ++ [x]

/-- The inner fold `for _, other := range parts[:i+1] do full =
filepath.Join(full, other)` (build.go 749-752). -/
def joinRun (parts : List String) : String :=
  parts.foldl goJoin ""

/-- All the Join-folded prefixes a single argument contributes, in order
(one per `i := range parts`). -/
def joinPrefixes (parts : List String) : List String :=
  (List.range parts.length).map (fun i => joinRun (parts.take (i + 1)))

/-- The `for i := range parts` loop of build.go 748-763: dedup-append every
Join-folded prefix of `parts`. -/
def addPrefixes (acc : List String) (parts : List String) : List String :=
  (List.range parts.length).foldl (fun a i => dedupAppend a (joinRun (parts.take (i + 1)))) acc

/-- One scanner iteration of `createDockerInclude` (build.go 731-766):
skip blank and `#` lines; on a `COPY`/`ADD` line take `fields[1]`
(`none` models the index-out-of-range panic of a bare directive), skip
`--from` references, stat the joined path (`none` = stat error aborts),
append `/` when the target is a directory and `rel` lacks one, and
dedup-add every Join-folded prefix of the split argument. -/
def processRecipeLine (stat : String → Option Bool) (contextPath : String)
    (acc : List String) (rawLine : String) : Option (List String) :=
  let line := trimSpace rawLine
  if line.length = 0 || goStartsWith line "#" then some acc
  else if goStartsWith line "COPY" || goStartsWith line "ADD" then
    match (goFields line)[1]? with
    | none => none
    | some rel =>
      if goStartsWith rel "--from" then some acc
      else
        match stat (goClean (goJoin contextPath rel)) with
        | none => none
        | some isDir =>
          some (addPrefixes acc
            (goSplitOn '/' (if isDir && !goEndsWith rel "/" then rel ++ "/" else rel)))
  else some acc

/-- The scanner loop of `createDockerInclude`, threading `addedPaths`. -/
def createDockerIncludePaths (stat : String → Option Bool) (contextPath : String) :
    List String → List String → Option (List String)
  | acc, [] => some acc
  | acc, line :: rest =>
    match processRecipeLine stat contextPath acc line with
    | none => none
    | some acc2 => createDockerIncludePaths stat contextPath acc2 rest

/-- Model of `createDockerInclude` (build.go 723-771): the list of paths
the returned gitignore matcher is built from. -/
def createDockerInclude (stat : String → Option Bool) (contextPath : String)
    (lines : List String) : Option (List String) :=
  createDockerIncludePaths stat contextPath [] lines

/-- Counterexample to claim C9 as stated: for `COPY subdir /app` where
`subdir` is a directory, the claim puts the canonicalized argument
`subdir/` (with its trailing separator) in the include set; but the code's
`filepath.Join` fold cleans the trailing separator away, so the collected
paths are exactly `[subdir]` and `subdir/` is NOT among them. -/
theorem docker_include_trailing_sep_counterexample :
    createDockerInclude
        (fun p => if p = "/ctx/subdir" then some true else none) "/ctx"
        ["COPY subdir /app"] = some ["subdir"] ∧
    "subdir/" ∉ ["subdir"] := by
  exact ⟨by decide, by decide⟩


theorem mem_dedupAppend (acc : List String) (y x : String) :
    x ∈ dedupAppend acc y ↔ x ∈ acc ∨ x = y := by
  rw [dedupAppend]
  split
  · rename_i h
    have hy : y ∈ acc := by simpa using h
    constructor
    · exact Or.inl
    · rintro (hx | hx)
      · exact hx
      · rw [hx]; exact hy
  · simp

theorem nodup_dedupAppend (acc : List String) (y : String) (h : acc.Nodup) :
    (dedupAppend acc y).Nodup := by
  rw [dedupAppend]
  split
  · exact h
  · rename_i hy
    have hny : y ∉ acc := by
      intro hmem
      exact hy (by simpa using hmem)
    rw [← List.concat_eq_append]
    exact h.concat hny
theorem mem_foldl_dedupAppend (xs : List String) :
    ∀ (acc : List String) (x : String),
      x ∈ xs.foldl dedupAppend acc ↔ x ∈ acc ∨ x ∈ xs := by
  induction xs with
  | nil => intro acc x; simp
  | cons y ys ih =>
    intro acc x
    rw [List.foldl_cons, ih, mem_dedupAppend]
    rw [List.mem_cons]
    tauto

theorem nodup_foldl_dedupAppend (xs : List String) :
    ∀ (acc : List String), acc.Nodup → (xs.foldl dedupAppend acc).Nodup := by
  induction xs with
  | nil => intro acc h; exact h
  | cons y ys ih =>
    intro acc h
    exact ih _ (nodup_dedupAppend acc y h)

theorem addPrefixes_eq_foldl (acc parts : List String) :
    addPrefixes acc parts = (joinPrefixes parts).foldl dedupAppend acc := by
  rw [addPrefixes, joinPrefixes, List.foldl_map]

theorem mem_addPrefixes (acc parts : List String) (x : String) :
    x ∈ addPrefixes acc parts ↔ x ∈ acc ∨ x ∈ joinPrefixes parts := by
  rw [addPrefixes_eq_foldl, mem_foldl_dedupAppend]

theorem nodup_addPrefixes (acc parts : List String) (h : acc.Nodup) :
    (addPrefixes acc parts).Nodup := by
  rw [addPrefixes_eq_foldl]
  exact nodup_foldl_dedupAppend _ _ h
/-- Spec-side reading of one recipe line (the claim's "directive that
imports file content from the context"): the first argument of a trimmed
non-blank non-comment `COPY`/`ADD` line whose argument does not start with
`--from`; `none` when the line contributes nothing. -/
def relevantArg (rawLine : String) : Option String :=
  let line := trimSpace rawLine
  if line.length = 0 || goStartsWith line "#" then none
  else if goStartsWith line "COPY" || goStartsWith line "ADD" then
    match (goFields line)[1]? with
    | none => none
    | some rel => if goStartsWith rel "--from" then none else some rel
  else none

/-- Directory canonicalization of build.go 744-746: append a trailing
separator when the argument names a directory and lacks one. -/
def withSep (rel : String) (isDir : Bool) : String :=
  if isDir && !goEndsWith rel "/" then rel ++ "/" else rel

/-- What one recipe line contributes to the include set: some path `x`
among the Join-folded prefixes of its canonicalized relevant argument. -/
def lineYields (stat : String → Option Bool) (contextPath : String)
    (line : String) (x : String) : Prop :=
  ∃ rel isDir, relevantArg line = some rel ∧
    stat (goClean (goJoin contextPath rel)) = some isDir ∧
    x ∈ joinPrefixes (goSplitOn '/' (withSep rel isDir))

theorem processRecipeLine_mem (stat : String → Option Bool) (ctx : String)
    (acc : List String) (line : String) (acc2 : List String)
    (h : processRecipeLine stat ctx acc line = some acc2) :
    (∀ x, x ∈ acc2 ↔ x ∈ acc ∨ lineYields stat ctx line x) ∧
    (acc.Nodup → acc2.Nodup) := by
  rw [processRecipeLine] at h
  split at h
  · rename_i hskip
    injection h with h
    subst h
    refine ⟨fun x => ?_, id⟩
    simp only [lineYields, relevantArg, hskip, if_pos]
    simp
  · rename_i hskip
    split at h
    · rename_i hcopy
      cases harg : (goFields (trimSpace line))[1]? with
      | none => simp only [harg, reduceCtorEq] at h
      | some rel =>
        simp only [harg] at h
        split at h
        · rename_i hfrom
          injection h with h
          subst h
          refine ⟨fun x => ?_, id⟩
          simp only [lineYields, relevantArg, hskip, if_neg, hcopy, if_pos, harg, hfrom]
          simp
        · rename_i hfrom
          cases hst : stat (goClean (goJoin ctx rel)) with
          | none => simp only [hst, reduceCtorEq] at h
          | some isDir =>
            simp only [hst] at h
            injection h with h
            subst h
            refine ⟨fun x => ?_, fun hn => nodup_addPrefixes _ _ hn⟩
            rw [mem_addPrefixes]
            constructor
            · rintro (hx | hx)
              · exact Or.inl hx
              · refine Or.inr ⟨rel, isDir, ?_, hst, ?_⟩
                · simp [relevantArg, hskip, hcopy, harg, hfrom]
                · rw [withSep]
                  exact hx
            · rintro (hx | ⟨rel2, isDir2, hra, hst2, hx⟩)
              · exact Or.inl hx
              · simp only [relevantArg, hskip, hcopy, harg, hfrom] at hra
                simp only [Bool.false_eq_true, if_false, if_neg, Option.some.injEq] at hra
                injection hra with hra
                subst hra
                rw [hst] at hst2
                injection hst2 with hst2
                subst hst2
                rw [withSep] at hx
                exact Or.inr hx
    · rename_i hcopy
      injection h with h
      subst h
      refine ⟨fun x => ?_, id⟩
      simp only [lineYields, relevantArg, hskip, if_neg, hcopy]
      simp
theorem createDockerIncludePaths_spec (stat : String → Option Bool) (ctx : String) :
    ∀ (lines : List String) (acc ps : List String),
      createDockerIncludePaths stat ctx acc lines = some ps →
      (∀ x, x ∈ ps ↔ x ∈ acc ∨ ∃ line ∈ lines, lineYields stat ctx line x) ∧
      (acc.Nodup → ps.Nodup) := by
  intro lines
  induction lines with
  | nil =>
    intro acc ps h
    rw [createDockerIncludePaths] at h
    injection h with h
    subst h
    refine ⟨fun x => ?_, id⟩
    simp
  | cons line rest ih =>
    intro acc ps h
    rw [createDockerIncludePaths] at h
    cases hpl : processRecipeLine stat ctx acc line with
    | none => simp only [hpl, reduceCtorEq] at h
    | some acc2 =>
      simp only [hpl] at h
      have hline := processRecipeLine_mem stat ctx acc line acc2 hpl
      have hrest := ih acc2 ps h
      refine ⟨fun x => ?_, fun hn => hrest.2 (hline.2 hn)⟩
      rw [hrest.1 x]
      rw [hline.1 x]
      constructor
      · rintro ((hx | hx) | ⟨l, hl, hy⟩)
        · exact Or.inl hx
        · exact Or.inr ⟨line, List.mem_cons_self line rest, hx⟩
        · exact Or.inr ⟨l, List.mem_cons_of_mem _ hl, hy⟩
      · rintro (hx | ⟨l, hl, hy⟩)
        · exact Or.inl (Or.inl hx)
        · rcases List.mem_cons.mp hl with hl' | hl'
          · subst hl'
            exact Or.inl (Or.inr hy)
          · exact Or.inr ⟨l, hl', hy⟩


/-- An ordinary path component: non-empty, not a dot component, and free
of separators — the shape every real `COPY`/`ADD` source component has. -/
def SimpleComp (c : String) : Prop :=
  c ≠ "" ∧ c ≠ "." ∧ c ≠ ".." ∧ '/' ∉ c.data

theorem string_data_append (a b : String) : (a ++ b).data = a.data ++ b.data := by
  cases a
  cases b
  rfl

theorem string_ne_empty_of_data {c : String} (h : c.data ≠ []) : c ≠ "" := by
  intro he
  subst he
  exact h rfl

theorem string_data_ne_of_ne {c : String} (h : c ≠ "") : c.data ≠ [] := by
  intro hd
  apply h
  cases c
  simp only at hd
  subst hd
  rfl

theorem splitCharsOn_no_sep (sep : Char) (xs : List Char) (hx : sep ∉ xs) :
    ∀ cur, splitCharsOn sep xs cur = [cur.reverse ++ xs] := by
  induction xs with
  | nil => intro cur; simp [splitCharsOn]
  | cons c t ih =>
    intro cur
    have hc : c ≠ sep := fun h => hx (h ▸ List.mem_cons_self c t)
    rw [splitCharsOn, if_neg (by exact fun h => hc h)]
    rw [ih (fun h => hx (List.mem_cons_of_mem _ h)) (c :: cur)]
    simp

theorem splitCharsOn_append_sep (sep : Char) (xs ys : List Char) (hx : sep ∉ xs) :
    ∀ cur, splitCharsOn sep (xs ++ sep :: ys) cur =
      (cur.reverse ++ xs) :: splitCharsOn sep ys [] := by
  induction xs with
  | nil =>
    intro cur
    rw [List.nil_append, splitCharsOn, if_pos rfl]
    simp
  | cons c t ih =>
    intro cur
    have hc : c ≠ sep := fun h => hx (h ▸ List.mem_cons_self c t)
    rw [List.cons_append, splitCharsOn, if_neg (by exact fun h => hc h)]
    rw [ih (fun h => hx (List.mem_cons_of_mem _ h)) (c :: cur)]
    simp

theorem splitCharsOn_append_last_sep (sep : Char) (l : List Char) :
    ∀ cur, splitCharsOn sep (l ++ [sep]) cur = splitCharsOn sep l cur ++ [[]] := by
  induction l with
  | nil =>
    intro cur
    simp [splitCharsOn]
  | cons c t ih =>
    intro cur
    by_cases hc : c = sep
    · subst hc
      simp [splitCharsOn, ih]
    · simp [splitCharsOn, hc, ih]

theorem goSplitOn_joinSlash (cs : List String) (hne : cs ≠ [])
    (hs : ∀ c ∈ cs, '/' ∉ c.data) : goSplitOn '/' (joinSlash cs) = cs := by
  induction cs with
  | nil => exact absurd rfl hne
  | cons c rest ih =>
    cases rest with
    | nil =>
      rw [joinSlash, goSplitOn]
      rw [splitCharsOn_no_sep '/' c.data (hs c (List.mem_cons_self c [])) []]
      simp
    | cons c2 rest2 =>
      rw [joinSlash, goSplitOn]
      have hdata : ((c ++ "/") ++ joinSlash (c2 :: rest2)).data =
          c.data ++ '/' :: (joinSlash (c2 :: rest2)).data := by
        rw [string_data_append, string_data_append]
        simp
      rw [hdata]
      rw [splitCharsOn_append_sep '/' c.data _ (hs c (List.mem_cons_self c _)) []]
      have ihr := ih (List.cons_ne_nil c2 rest2) (fun x hx => hs x (List.mem_cons_of_mem _ hx))
      rw [goSplitOn] at ihr
      simp only [List.map_cons, List.reverse_nil, List.nil_append, ihr]
      simp

theorem joinSlash_data_cons (c : String) (c2 : String) (rest : List String) :
    (joinSlash (c :: c2 :: rest)).data = c.data ++ '/' :: (joinSlash (c2 :: rest)).data := by
  have h : joinSlash (c :: c2 :: rest) = c ++ "/" ++ joinSlash (c2 :: rest) := rfl
  rw [h, string_data_append, string_data_append]
  simp

theorem joinSlash_ne_empty (cs : List String) (hne : cs ≠ [])
    (hs : ∀ c ∈ cs, SimpleComp c) : joinSlash cs ≠ "" := by
  cases cs with
  | nil => exact absurd rfl hne
  | cons c rest =>
    apply string_ne_empty_of_data
    cases rest with
    | nil =>
      rw [joinSlash]
      exact string_data_ne_of_ne (hs c (List.mem_cons_self c _)).1
    | cons c2 rest2 =>
      rw [joinSlash_data_cons]
      have := string_data_ne_of_ne (hs c (List.mem_cons_self c _)).1
      intro hcontra
      rcases List.append_eq_nil.mp hcontra with ⟨h1, _⟩
      exact this h1

theorem goStartsWith_joinSlash_slash (cs : List String) (hne : cs ≠ [])
    (hs : ∀ c ∈ cs, SimpleComp c) : goStartsWith (joinSlash cs) "/" = false := by
  cases cs with
  | nil => exact absurd rfl hne
  | cons c rest =>
    have hcd := string_data_ne_of_ne (hs c (List.mem_cons_self c _)).1
    have hcslash := (hs c (List.mem_cons_self c _)).2.2.2
    rcases hhead : c.data with h1 | ⟨ch, t⟩
    · exact absurd hhead hcd
    · have hch : ch ≠ '/' := by
        intro he
        apply hcslash
        rw [hhead, he]
        exact List.mem_cons_self _ _
      rw [goStartsWith]
      cases rest with
      | nil =>
        rw [joinSlash, hhead]
        simp [List.isPrefixOf]
        intro hcc
        exact absurd hcc.symm hch
      | cons c2 rest2 =>
        rw [joinSlash_data_cons, hhead]
        simp [List.isPrefixOf]
        intro hcc
        exact absurd hcc.symm hch

theorem foldl_cleanStep_no_dotdot (rooted : Bool) (cs : List String)
    (hs : ∀ c ∈ cs, c ≠ "..") :
    ∀ acc, cs.foldl (cleanStep rooted) acc = acc ++ cs := by
  induction cs with
  | nil => intro acc; simp
  | cons c rest ih =>
    intro acc
    rw [List.foldl_cons, cleanStep, if_neg (hs c (List.mem_cons_self c _))]
    rw [ih (fun x hx => hs x (List.mem_cons_of_mem _ hx))]
    simp

theorem string_empty_append (s : String) : "" ++ s = s := by
  cases s
  rfl

theorem goClean_joinSlash (cs : List String) (hne : cs ≠ [])
    (hs : ∀ c ∈ cs, SimpleComp c) : goClean (joinSlash cs) = joinSlash cs := by
  rw [goClean]
  rw [if_neg (joinSlash_ne_empty cs hne hs)]
  have hroot : goStartsWith (joinSlash cs) "/" = false := goStartsWith_joinSlash_slash cs hne hs
  have hsplit : goSplitOn '/' (joinSlash cs) = cs :=
    goSplitOn_joinSlash cs hne (fun c hc => (hs c hc).2.2.2)
  simp only [hroot, hsplit]
  have hfilter : cs.filter (fun c => c ≠ "" && c ≠ ".") = cs := by
    apply List.filter_eq_self.mpr
    intro c hc
    simp [(hs c hc).1, (hs c hc).2.1]
  rw [hfilter]
  rw [foldl_cleanStep_no_dotdot false cs (fun c hc => (hs c hc).2.2.1) []]
  rw [List.nil_append]
  have hemp : cs.isEmpty = false := by
    cases cs
    · exact absurd rfl hne
    · rfl
  rw [hemp]
  simp only [Bool.false_eq_true, if_false, if_neg]
  exact string_empty_append _


theorem joinSlash_append_singleton (cs : List String) (c : String) (hne : cs ≠ []) :
    joinSlash (cs ++ [c]) = joinSlash cs ++ "/" ++ c := by
  induction cs with
  | nil => exact absurd rfl hne
  | cons c0 rest ih =>
    cases rest with
    | nil =>
      have h1 : joinSlash ([c0] ++ [c]) = c0 ++ "/" ++ joinSlash [c] := rfl
      rw [h1]
      rfl
    | cons c1 rest1 =>
      have h1 : joinSlash ((c0 :: c1 :: rest1) ++ [c]) =
          c0 ++ "/" ++ joinSlash ((c1 :: rest1) ++ [c]) := rfl
      have h2 : joinSlash (c0 :: c1 :: rest1) = c0 ++ "/" ++ joinSlash (c1 :: rest1) := rfl
      rw [h1, ih (List.cons_ne_nil c1 rest1), h2]
      simp [String.append_assoc]

theorem goJoin_joinSlash_snoc (cs : List String) (c : String) (hne : cs ≠ [])
    (hs : ∀ x ∈ cs ++ [c], SimpleComp x) :
    goJoin (joinSlash cs) c = joinSlash (cs ++ [c]) := by
  have hcs : ∀ x ∈ cs, SimpleComp x := fun x hx => hs x (List.mem_append_left _ hx)
  rw [goJoin, if_neg (joinSlash_ne_empty cs hne hcs)]
  rw [← joinSlash_append_singleton cs c hne]
  exact goClean_joinSlash (cs ++ [c]) (by simp) hs

theorem foldl_goJoin_simple (rest : List String) :
    ∀ (pre : List String), pre ≠ [] → (∀ x ∈ pre ++ rest, SimpleComp x) →
      rest.foldl goJoin (joinSlash pre) = joinSlash (pre ++ rest) := by
  induction rest with
  | nil => intro pre hne hs; simp
  | cons c rest1 ih =>
    intro pre hne hs
    rw [List.foldl_cons]
    have hstep : goJoin (joinSlash pre) c = joinSlash (pre ++ [c]) := by
      apply goJoin_joinSlash_snoc pre c hne
      intro x hx
      apply hs
      rcases List.mem_append.mp hx with h | h
      · exact List.mem_append_left _ h
      · rcases List.mem_singleton.mp h with h2
        rw [h2]
        exact List.mem_append_right _ (List.mem_cons_self c rest1)
    rw [hstep]
    rw [ih (pre ++ [c]) (by simp) (by
      intro x hx
      apply hs
      rcases List.mem_append.mp hx with h | h
      · rcases List.mem_append.mp h with h2 | h2
        · exact List.mem_append_left _ h2
        · rcases List.mem_singleton.mp h2 with h3
          rw [h3]
          exact List.mem_append_right _ (List.mem_cons_self c rest1)
      · exact List.mem_append_right _ (List.mem_cons_of_mem c h))]
    simp

theorem joinRun_simple (cs : List String) (hne : cs ≠ [])
    (hs : ∀ x ∈ cs, SimpleComp x) : joinRun cs = joinSlash cs := by
  cases cs with
  | nil => exact absurd rfl hne
  | cons c0 rest =>
    rw [joinRun, List.foldl_cons]
    have h0 : goJoin "" c0 = c0 := by
      rw [goJoin, if_pos rfl, if_neg (hs c0 (List.mem_cons_self c0 rest)).1]
      exact goClean_joinSlash [c0] (List.cons_ne_nil c0 [])
        (fun x hx => by rw [List.mem_singleton.mp hx]; exact hs c0 (List.mem_cons_self c0 rest))
    rw [h0]
    have := foldl_goJoin_simple rest [c0] (List.cons_ne_nil c0 []) (by simpa using hs)
    rw [joinSlash] at this
    simpa using this

theorem goSplitOn_joinSlash_trailing (cs : List String) (hne : cs ≠ [])
    (hs : ∀ c ∈ cs, '/' ∉ c.data) :
    goSplitOn '/' (joinSlash cs ++ "/") = cs ++ [""] := by
  rw [goSplitOn]
  have hd : (joinSlash cs ++ "/").data = (joinSlash cs).data ++ ['/'] := by
    rw [string_data_append]
  rw [hd, splitCharsOn_append_last_sep]
  have := goSplitOn_joinSlash cs hne hs
  rw [goSplitOn] at this
  rw [List.map_append, this]
  rfl

theorem goJoin_trailing_empty (cs : List String) (hne : cs ≠ [])
    (hs : ∀ x ∈ cs, SimpleComp x) :
    goJoin (joinSlash cs) "" = joinSlash cs := by
  rw [goJoin, if_neg (joinSlash_ne_empty cs hne hs)]
  have happ : joinSlash cs ++ "/" ++ "" = joinSlash cs ++ "/" := by
    apply String.ext
    rw [string_data_append]
    simp
  rw [happ]
  rw [goClean]
  have hnn : joinSlash cs ++ "/" ≠ "" := by
    apply string_ne_empty_of_data
    rw [string_data_append]
    simp
  rw [if_neg hnn]
  have hroot : goStartsWith (joinSlash cs ++ "/") "/" = false := by
    cases cs with
    | nil => exact absurd rfl hne
    | cons c rest =>
      have hcd := string_data_ne_of_ne (hs c (List.mem_cons_self c _)).1
      have hcslash := (hs c (List.mem_cons_self c _)).2.2.2
      rcases hhead : c.data with h1 | ⟨ch, t⟩
      · exact absurd hhead hcd
      · have hch : ch ≠ '/' := by
          intro he
          apply hcslash
          rw [hhead, he]
          exact List.mem_cons_self _ _
        rw [goStartsWith, string_data_append]
        cases rest with
        | nil =>
          have hj : joinSlash [c] = c := rfl
          rw [hj, hhead]
          simp [List.isPrefixOf]
          intro hcc
          exact absurd hcc.symm hch
        | cons c2 rest2 =>
          rw [joinSlash_data_cons, hhead]
          simp [List.isPrefixOf]
          intro hcc
          exact absurd hcc.symm hch
  have hsplit := goSplitOn_joinSlash_trailing cs hne (fun c hc => (hs c hc).2.2.2)
  simp only [hroot, hsplit]
  have hfilter : (cs ++ [""]).filter (fun c => c ≠ "" && c ≠ ".") = cs := by
    rw [List.filter_append]
    have h1 : cs.filter (fun c => c ≠ "" && c ≠ ".") = cs := by
      apply List.filter_eq_self.mpr
      intro c hc
      simp [(hs c hc).1, (hs c hc).2.1]
    have h2 : ([""] : List String).filter (fun c => c ≠ "" && c ≠ ".") = [] := by
      simp
    rw [h1, h2, List.append_nil]
  rw [hfilter]
  rw [foldl_cleanStep_no_dotdot false cs (fun c hc => (hs c hc).2.2.1) []]
  rw [List.nil_append]
  have hemp : cs.isEmpty = false := by
    cases cs
    · exact absurd rfl hne
    · rfl
  rw [hemp]
  simp only [Bool.false_eq_true, if_false, if_neg]
  exact string_empty_append _


theorem take_ne_nil_of_ne_nil (cs : List String) (i : Nat) (hne : cs ≠ []) :
    cs.take (i + 1) ≠ [] := by
  cases cs with
  | nil => exact absurd rfl hne
  | cons c rest =>
    rw [List.take_succ_cons]
    exact List.cons_ne_nil _ _

theorem joinPrefixes_simple (cs : List String) (hne : cs ≠ [])
    (hs : ∀ c ∈ cs, SimpleComp c) :
    joinPrefixes cs = (List.range cs.length).map (fun i => joinSlash (cs.take (i + 1))) ∧
    joinPrefixes (cs ++ [""]) = joinPrefixes cs ++ [joinSlash cs] := by
  have hpart1 : joinPrefixes cs =
      (List.range cs.length).map (fun i => joinSlash (cs.take (i + 1))) := by
    rw [joinPrefixes]
    apply List.map_congr_left
    intro i hi
    exact joinRun_simple (cs.take (i + 1)) (take_ne_nil_of_ne_nil cs i hne)
      (fun c hc => hs c (List.mem_of_mem_take hc))
  refine ⟨hpart1, ?_⟩
  rw [joinPrefixes, List.length_append, List.length_singleton, List.range_succ,
    List.map_append]
  have hleft : (List.range cs.length).map
      (fun i => joinRun ((cs ++ [""]).take (i + 1))) =
      (List.range cs.length).map (fun i => joinRun (cs.take (i + 1))) := by
    apply List.map_congr_left
    intro i hi
    rw [List.mem_range] at hi
    rw [List.take_append_of_le_length (by omega)]
  have hlast : joinRun ((cs ++ [""]).take (cs.length + 1)) = joinSlash cs := by
    rw [List.take_of_length_le (by simp)]
    rw [joinRun, List.foldl_append, List.foldl_cons, List.foldl_nil]
    have h1 : cs.foldl goJoin "" = joinSlash cs := joinRun_simple cs hne hs
    rw [h1]
    exact goJoin_trailing_empty cs hne hs
  rw [hleft, List.map_singleton, hlast]
  rw [joinPrefixes]

/-- Claim C9 as amended: on success the collected include paths are exactly
(duplicate-free, one occurrence each) the `filepath.Join`-folded prefixes
contributed by the `COPY`/`ADD` directives whose first argument does not
reference an external stage, blank, comment and other lines contributing
nothing; and for an argument with ordinary path components the contributed
set is precisely its slash-joined proper prefixes together with the full
argument WITHOUT any trailing separator — the trailing separator appended
for directories is cleaned away again by `filepath.Join`, contributing
nothing new. -/
theorem docker_include_amended (stat : String → Option Bool) (ctx : String)
    (lines ps : List String)
    (hok : createDockerInclude stat ctx lines = some ps) :
    ps.Nodup ∧
    (∀ x, x ∈ ps ↔ ∃ line ∈ lines, lineYields stat ctx line x) ∧
    (∀ cs : List String, cs ≠ [] → (∀ c ∈ cs, SimpleComp c) →
      joinPrefixes cs = (List.range cs.length).map (fun i => joinSlash (cs.take (i + 1))) ∧
      joinPrefixes (cs ++ [""]) = joinPrefixes cs ++ [joinSlash cs]) := by
  have hspec := createDockerIncludePaths_spec stat ctx lines [] ps hok
  refine ⟨hspec.2 List.nodup_nil, fun x => ?_, fun cs hne hs => joinPrefixes_simple cs hne hs⟩
  rw [hspec.1 x]
  simp

/-- Witness for the amended C9: the concrete directory `COPY` directive of
the counterexample, where the collected paths `[subdir]` are duplicate-free
and `subdir` is contributed by the directive. -/
theorem docker_include_amended_witness :
    (["subdir"] : List String).Nodup ∧
    ("subdir" ∈ (["subdir"] : List String) ↔ ∃ line ∈ ["COPY subdir /app"],
      lineYields (fun p => if p = "/ctx/subdir" then some true else none) "/ctx"
        line "subdir") := by
  have h := docker_include_amended
    (fun p => if p = "/ctx/subdir" then some true else none) "/ctx"
    ["COPY subdir /app"] ["subdir"] (by decide)
  exact ⟨h.1, h.2.1 "subdir"⟩

end Kindest
